import Mathlib

/-!
# Verification of the kvs-rs key-value store

Shallow embedding of `src/lib.rs`: a `Store` wraps a `Records` map
(`HashMap<Bytes, Bytes>`) behind a mutex; `get`, `set` and `remove` all go
through `try_run`, which acquires the lock and silently degrades to a no-op
(`None` / unchanged map) when the mutex is poisoned.

The embedding models `Bytes` as lists of naturals, `Records` as an
association list with the `HashMap` operations (`get` finds the first
matching key, `insert` replaces the value of an existing key in place,
`remove` erases the entry of the key), and the mutex's poison state as a
boolean on the store.  `try_run` becomes explicit state passing: the
callback receives the records and returns an optional result together with
the (possibly mutated) records; a poisoned store short-circuits to `none`
and leaves the records untouched, exactly as `self.acquire().ok().and_then(callback)`
does in the source.
-/

/-- `Bytes`: an opaque byte sequence (crate `bytes::Bytes`). -/
abbrev Bytes := List Nat

/-- `pub type Records = HashMap<Bytes, Bytes>;` modelled as an association
list; the `HashMap` invariant that keys are unique is `keysNodup` below. -/
abbrev Records := List (Bytes × Bytes)

/-- `HashMap::get(&k).map(|byte| byte.clone())`: the value of the first
entry whose key equals `k`, if any. -/
def recordsGet : Records → Bytes → Option Bytes
  | [], _ => none
  | (k', v') :: rest, k => if k' = k then some v' else recordsGet rest k

/-- `HashMap::insert(k, v)` (state part): replace the value of an existing
entry for `k` in place, or append a fresh entry.  The old value that
`insert` returns (and the source discards) equals `recordsGet r k`. -/
def recordsInsert : Records → Bytes → Bytes → Records
  | [], k, v => [(k, v)]
  | (k', v') :: rest, k, v =>
    if k' = k then (k', v) :: rest else (k', v') :: recordsInsert rest k v

/-- `HashMap::remove(&k)` (state part): erase the entry for `k` if present.
The removed value that `remove` returns (and the source discards) equals
`recordsGet r k`. -/
def recordsRemove : Records → Bytes → Records
  | [], _ => []
  | (k', v') :: rest, k => if k' = k then rest else (k', v') :: recordsRemove rest k

/-- The keys of a records map, in order. -/
def recordKeys (r : Records) : List Bytes := r.map Prod.fst

/-- The `HashMap` representation invariant: keys are pairwise distinct. -/
def keysNodup (r : Records) : Prop := (recordKeys r).Nodup

instance (r : Records) : Decidable (keysNodup r) := by
  unfold keysNodup; infer_instance

/-- `pub struct Store(Arc<Mutex<Records>>);` — one mutex-guarded map.
`poisoned` models the poison state of the `Mutex`: `Store::acquire`
(`self.0.lock()`) returns `Err` exactly when the mutex is poisoned. -/
structure Store where
  poisoned : Bool
  records : Records
  deriving DecidableEq

/-- `Store::new()`: a fresh store wrapping an empty, unpoisoned map. -/
def Store.new : Store := ⟨false, []⟩

/-- `Store::try_run`: `self.acquire().ok().and_then(callback)`.  On a
poisoned mutex the callback never runs and the result is `None`; otherwise
the callback acts on the guarded records and its optional result is
returned.  The callback here also returns the records so mutation through
the guard is explicit. -/
def Store.tryRun {α : Type} (s : Store) (callback : Records → Option α × Records) :
    Option α × Store :=
  if s.poisoned then (none, s)
  else
    let (out, r) := callback s.records
    (out, { s with records := r })

/-- `Store::get` as it executes: result value together with the store state
after the call (`get`'s closure reads the map and leaves it unchanged). -/
def Store.getRun (s : Store) (k : Bytes) : Option Bytes × Store :=
  s.tryRun (fun r => (recordsGet r k, r))

/-- `pub fn get(&self, k: Bytes) -> Option<Bytes>`. -/
def Store.get (s : Store) (k : Bytes) : Option Bytes := (s.getRun k).1

/-- `pub fn set(&self, k: Bytes, v: Bytes)`: insert through `try_run`; the
old value returned by `HashMap::insert` is discarded by the trailing `;`. -/
def Store.set (s : Store) (k v : Bytes) : Store :=
  (s.tryRun (fun r => (recordsGet r k, recordsInsert r k v))).2

/-- `pub fn remove(&self, k: Bytes)`: erase through `try_run`; the removed
value returned by `HashMap::remove` is discarded by the trailing `;`. -/
def Store.remove (s : Store) (k : Bytes) : Store :=
  (s.tryRun (fun r => (recordsGet r k, recordsRemove r k))).2

/-! ## The `Arc` handle model

`Store` is `Arc<Mutex<Records>>`: cloning a `Store` clones the `Arc`
handle, so both handles point at the same mutex-guarded map.  A heap maps
allocation addresses to store states; a handle is an address; `Clone` for
`Arc` copies the address. -/

/-- An `Arc` handle: the address of the shared `Mutex<Records>` cell. -/
abbrev StoreHandle := Nat

/-- The heap of shared `Mutex<Records>` cells, by address. -/
abbrev Heap := StoreHandle → Store

/-- `Clone::clone` on `Store`: copies the `Arc` pointer, not the data. -/
def cloneHandle (p : StoreHandle) : StoreHandle := p

/-- The cell a handle refers to. -/
def heapDeref (h : Heap) (p : StoreHandle) : Store := h p

/-- `set` called through a handle: mutates the shared cell it points to. -/
def heapSet (h : Heap) (p : StoreHandle) (k v : Bytes) : Heap :=
  fun q => if q = p then (h p).set k v else h q

/-- `get` called through a handle: reads the shared cell it points to. -/
def heapGet (h : Heap) (p : StoreHandle) (k : Bytes) : Option Bytes :=
  (h p).get k

/-! ## Records-level lemmas -/

theorem recordsGet_insert_self (r : Records) (k v : Bytes) :
    recordsGet (recordsInsert r k v) k = some v := by
  induction r with
  | nil => simp [recordsInsert, recordsGet]
  | cons p rest ih =>
    obtain ⟨k', v'⟩ := p
    by_cases h : k' = k
    · simp [recordsInsert, recordsGet, h]
    · simp [recordsInsert, recordsGet, h, ih]

theorem recordsGet_insert_other (r : Records) (k v k' : Bytes) (h : k' ≠ k) :
    recordsGet (recordsInsert r k v) k' = recordsGet r k' := by
  have h' : k ≠ k' := Ne.symm h
  induction r with
  | nil => simp [recordsInsert, recordsGet, h']
  | cons p rest ih =>
    obtain ⟨a, b⟩ := p
    by_cases ha : a = k
    · subst ha
      simp [recordsInsert, recordsGet, h']
    · simp only [recordsInsert, if_neg ha]
      by_cases ha' : a = k'
      · simp [recordsGet, ha']
      · simp [recordsGet, ha', ih]

theorem recordsGet_remove_other (r : Records) (k k' : Bytes) (h : k' ≠ k) :
    recordsGet (recordsRemove r k) k' = recordsGet r k' := by
  have h' : k ≠ k' := Ne.symm h
  induction r with
  | nil => simp [recordsRemove]
  | cons p rest ih =>
    obtain ⟨a, b⟩ := p
    by_cases ha : a = k
    · subst ha
      simp [recordsRemove, recordsGet, h']
    · simp only [recordsRemove, if_neg ha]
      by_cases ha' : a = k'
      · simp [recordsGet, ha']
      · simp [recordsGet, ha', ih]

theorem recordsGet_eq_none_of_not_mem (r : Records) (k : Bytes)
    (h : k ∉ recordKeys r) : recordsGet r k = none := by
  induction r with
  | nil => simp [recordsGet]
  | cons p rest ih =>
    obtain ⟨a, b⟩ := p
    simp only [recordKeys, List.map_cons, List.mem_cons] at h
    push_neg at h
    have ha : a ≠ k := Ne.symm h.1
    simp only [recordsGet, if_neg ha]
    exact ih (by simpa [recordKeys] using h.2)

theorem recordsGet_remove_self (r : Records) (k : Bytes) (hnd : keysNodup r) :
    recordsGet (recordsRemove r k) k = none := by
  induction r with
  | nil => simp [recordsRemove, recordsGet]
  | cons p rest ih =>
    obtain ⟨a, b⟩ := p
    simp only [keysNodup, recordKeys, List.map_cons, List.nodup_cons] at hnd
    by_cases ha : a = k
    · subst ha
      simp only [recordsRemove, if_pos rfl]
      exact recordsGet_eq_none_of_not_mem rest a (by simpa [recordKeys] using hnd.1)
    · simp only [recordsRemove, if_neg ha, recordsGet, if_neg ha]
      exact ih hnd.2

theorem recordsRemove_absent (r : Records) (k : Bytes)
    (h : recordsGet r k = none) : recordsRemove r k = r := by
  induction r with
  | nil => simp [recordsRemove]
  | cons p rest ih =>
    obtain ⟨a, b⟩ := p
    by_cases ha : a = k
    · simp [recordsGet, ha] at h
    · simp only [recordsGet, if_neg ha] at h
      simp [recordsRemove, ha, ih h]

theorem mem_recordKeys_insert (r : Records) (k v a : Bytes)
    (h : a ∈ recordKeys (recordsInsert r k v)) : a = k ∨ a ∈ recordKeys r := by
  induction r with
  | nil => simpa [recordsInsert, recordKeys] using h
  | cons p rest ih =>
    obtain ⟨b, c⟩ := p
    by_cases hb : b = k
    · subst hb
      simp [recordsInsert, recordKeys] at h ⊢
      tauto
    · simp only [recordsInsert, if_neg hb, recordKeys, List.map_cons, List.mem_cons] at h ⊢
      rcases h with h | h
      · tauto
      · rcases ih h with h' | h' <;> tauto

theorem keysNodup_insert (r : Records) (k v : Bytes) (hnd : keysNodup r) :
    keysNodup (recordsInsert r k v) := by
  induction r with
  | nil => simp [recordsInsert, keysNodup, recordKeys]
  | cons p rest ih =>
    obtain ⟨b, c⟩ := p
    simp only [keysNodup, recordKeys, List.map_cons, List.nodup_cons] at hnd
    by_cases hb : b = k
    · subst hb
      simp [recordsInsert, keysNodup, recordKeys]
      exact ⟨by simpa [recordKeys] using hnd.1, hnd.2⟩
    · simp only [recordsInsert, if_neg hb, keysNodup, recordKeys, List.map_cons,
        List.nodup_cons]
      refine ⟨?_, ih hnd.2⟩
      intro hmem
      rcases mem_recordKeys_insert rest k v b (by simpa [recordKeys] using hmem) with h' | h'
      · exact hb h'
      · exact hnd.1 (by simpa [recordKeys] using h')

theorem recordsInsert_length_of_present (r : Records) (k v w : Bytes)
    (h : recordsGet r k = some w) : (recordsInsert r k v).length = r.length := by
  induction r with
  | nil => simp [recordsGet] at h
  | cons p rest ih =>
    obtain ⟨b, c⟩ := p
    by_cases hb : b = k
    · simp [recordsInsert, hb]
    · simp only [recordsGet, if_neg hb] at h
      simp [recordsInsert, hb, ih h]

/-! ## Store-level helper lemmas (shared by several claim theorems) -/

theorem store_get_eq (s : Store) (k : Bytes) (hp : s.poisoned = false) :
    s.get k = recordsGet s.records k := by
  simp [Store.get, Store.getRun, Store.tryRun, hp]

theorem store_set_eq (s : Store) (k v : Bytes) (hp : s.poisoned = false) :
    s.set k v = { s with records := recordsInsert s.records k v } := by
  simp [Store.set, Store.tryRun, hp]

theorem store_remove_eq (s : Store) (k : Bytes) (hp : s.poisoned = false) :
    s.remove k = { s with records := recordsRemove s.records k } := by
  simp [Store.remove, Store.tryRun, hp]

theorem store_set_get_helper (s : Store) (k v : Bytes) (hp : s.poisoned = false) :
    (s.set k v).get k = some v := by
  rw [store_set_eq s k v hp,
    store_get_eq { s with records := recordsInsert s.records k v } k hp]
  exact recordsGet_insert_self s.records k v

/-! ## Claim theorems -/

/-- C1: for every key `k` and value `v`, after a successful (non-poisoned)
call to `set(k, v)` with no intervening mutation of `k`, `get(k)` returns
`v`. -/
theorem Store.set_then_get_same (s : Store) (k v : Bytes) (hp : s.poisoned = false) :
    (s.set k v).get k = some v :=
  store_set_get_helper s k v hp

theorem Store.set_then_get_same_witness :
    (Store.new.set [104, 105] [119, 111]).get [104, 105] = some [119, 111] :=
  Store.set_then_get_same Store.new [104, 105] [119, 111] rfl

/-- C2: a successful (non-poisoned) `remove(k)` followed by `get(k)` returns
absent; and `remove(k)` when `k` is absent leaves `Records` unchanged. -/
theorem Store.remove_then_get_absent (s : Store) (k : Bytes) (hp : s.poisoned = false)
    (hnd : keysNodup s.records) :
    (s.remove k).get k = none ∧ (s.get k = none → (s.remove k).records = s.records) := by
  constructor
  · rw [store_remove_eq s k hp,
      store_get_eq { s with records := recordsRemove s.records k } k hp]
    exact recordsGet_remove_self s.records k hnd
  · intro habs
    rw [store_get_eq s k hp] at habs
    rw [store_remove_eq s k hp]
    exact recordsRemove_absent s.records k habs

theorem Store.remove_then_get_absent_witness :
    ((Store.mk false [([1], [2])]).remove [1]).get [1] = none ∧
      ((Store.mk false [([1], [2])]).get [7] = none →
        ((Store.mk false [([1], [2])]).remove [7]).records =
          (Store.mk false [([1], [2])]).records) :=
  ⟨(Store.remove_then_get_absent (Store.mk false [([1], [2])]) [1] rfl (by decide)).1,
    (Store.remove_then_get_absent (Store.mk false [([1], [2])]) [7] rfl (by decide)).2⟩

/-- C3: if the lock is poisoned, all three operations degrade silently:
`get(k)` returns absent, `set(k, v)` and `remove(k)` leave the store (hence
`Records`) unchanged, and — as the total return types `Option Bytes` and
`Store` show — no operation propagates an error to the caller. -/
theorem Store.poisoned_ops_silent (s : Store) (k v : Bytes) (h : s.poisoned = true) :
    s.get k = none ∧ s.set k v = s ∧ s.remove k = s := by
  refine ⟨?_, ?_, ?_⟩ <;>
    simp [Store.get, Store.getRun, Store.set, Store.remove, Store.tryRun, h]

theorem Store.poisoned_ops_silent_witness :
    (Store.mk true [([1], [2])]).get [1] = none ∧
      (Store.mk true [([1], [2])]).set [1] [4] = Store.mk true [([1], [2])] ∧
      (Store.mk true [([1], [2])]).remove [1] = Store.mk true [([1], [2])] :=
  Store.poisoned_ops_silent (Store.mk true [([1], [2])]) [1] [4] rfl

/-- C4: for a key `k` already present and any value `v`, a successful
`set(k, v)` replaces the prior value in place: a subsequent `get(k)`
returns `v` (the old value is discarded), the number of entries does not
change, and the key-uniqueness (single-valued) invariant is preserved. -/
theorem Store.set_overwrites_existing (s : Store) (k vOld v : Bytes)
    (hp : s.poisoned = false) (hk : s.get k = some vOld) :
    (s.set k v).get k = some v ∧
      (s.set k v).records.length = s.records.length ∧
      (keysNodup s.records → keysNodup (s.set k v).records) := by
  rw [store_get_eq s k hp] at hk
  refine ⟨store_set_get_helper s k v hp, ?_, ?_⟩
  · rw [store_set_eq s k v hp]
    exact recordsInsert_length_of_present s.records k v vOld hk
  · intro hnd
    rw [store_set_eq s k v hp]
    exact keysNodup_insert s.records k v hnd

theorem Store.set_overwrites_existing_witness :
    ((Store.mk false [([1], [2])]).set [1] [3]).get [1] = some [3] ∧
      ((Store.mk false [([1], [2])]).set [1] [3]).records.length =
        (Store.mk false [([1], [2])]).records.length :=
  ⟨(Store.set_overwrites_existing (Store.mk false [([1], [2])]) [1] [2] [3] rfl rfl).1,
    (Store.set_overwrites_existing (Store.mk false [([1], [2])]) [1] [2] [3] rfl rfl).2.1⟩

/-- C5: `new()` always succeeds and yields a store whose `Records` is empty:
`get(k)` on a freshly constructed store returns absent for every `k`. -/
theorem Store.new_get_none (k : Bytes) : Store.new.get k = none := rfl

/-- C6: `remove(k)` leaves the value (or absence) of every other key `k'`
unchanged, whether or not `k` was present and whether or not the lock is
poisoned. -/
theorem Store.remove_preserves_other_keys (s : Store) (k k' : Bytes) (h : k' ≠ k) :
    (s.remove k).get k' = s.get k' := by
  cases hb : s.poisoned
  · rw [store_remove_eq s k hb,
      store_get_eq { s with records := recordsRemove s.records k } k' hb,
      store_get_eq s k' hb]
    exact recordsGet_remove_other s.records k k' h
  · simp [Store.remove, Store.tryRun, hb]

theorem Store.remove_preserves_other_keys_witness :
    ((Store.mk false [([1], [2]), ([3], [4])]).remove [1]).get [3] =
      (Store.mk false [([1], [2]), ([3], [4])]).get [3] :=
  Store.remove_preserves_other_keys (Store.mk false [([1], [2]), ([3], [4])]) [1] [3]
    (by decide)

/-- C7: `get` is read-only: for every key and every store state, running
`get` leaves the store (poison flag and `Records`) exactly unchanged. -/
theorem Store.get_leaves_store_unchanged (s : Store) (k : Bytes) :
    (s.getRun k).2 = s := by
  obtain ⟨p, r⟩ := s
  cases p <;> rfl

/-- C8: a cloned handle refers to the same underlying `Records` cell, and a
`set` through one handle is observable via `get` through the clone. -/
theorem clone_shares_underlying_records (h : Heap) (p : StoreHandle) (k v : Bytes) :
    heapDeref h (cloneHandle p) = heapDeref h p ∧
      ((h p).poisoned = false → heapGet (heapSet h p k v) (cloneHandle p) k = some v) := by
  refine ⟨rfl, fun hp => ?_⟩
  simp only [heapGet, heapSet, cloneHandle, if_pos]
  exact store_set_get_helper (h p) k v hp

theorem clone_shares_underlying_records_witness :
    heapGet (heapSet (fun _ => Store.new) 0 [1] [2]) (cloneHandle 0) [1] = some [2] :=
  (clone_shares_underlying_records (fun _ => Store.new) 0 [1] [2]).2 rfl

/-- C10: `set(k, v)` leaves the value (or absence) of every other key `k'`
unchanged, whether or not the lock is poisoned. -/
theorem Store.set_preserves_other_keys (s : Store) (k v k' : Bytes) (h : k' ≠ k) :
    (s.set k v).get k' = s.get k' := by
  cases hb : s.poisoned
  · rw [store_set_eq s k v hb,
      store_get_eq { s with records := recordsInsert s.records k v } k' hb,
      store_get_eq s k' hb]
    exact recordsGet_insert_other s.records k v k' h
  · simp [Store.set, Store.tryRun, hb]

theorem Store.set_preserves_other_keys_witness :
    ((Store.mk false [([1], [2])]).set [3] [4]).get [1] =
      (Store.mk false [([1], [2])]).get [1] :=
  Store.set_preserves_other_keys (Store.mk false [([1], [2])]) [3] [4] [1] (by decide)
